import Mathlib

/-!
Shallow embedding of `internal/util.go` of matrix-wechat-agent.

Modelling conventions:
* Go strings are lists of runes (`Str := List Char`); Go byte slices are
  `Bytes := List Nat`.
* Paths use the slash as separator; `filepath.Join`, `filepath.Clean`,
  `filepath.Base`, `filepath.Ext` are modelled lexically on slash paths.
* The XML query layer (`xmlquery.Parse` + `FindOne` + `InnerText`) is abstracted:
  each parser takes an `Option Str` per looked-up node, where `none` models a
  parse error or a missing node and `some t` a node with inner text `t`.
* A Go `nil` slice is `none`; a non-nil slice (possibly of length 0) is `some`.
* Time is discrete: the 1-second sleep is one step, `MediaDownloadTiemout` (sic,
  the source's spelling) is 30 steps, and the filesystem is a function of the
  step index.
-/

/-- Go strings, modelled as lists of runes. -/
abbrev Str := List Char

/-- Go byte slices, modelled as lists of byte values. -/
abbrev Bytes := List Nat

/-- `BlobData` from the source: a name and raw binary content. -/
structure BlobData where
  Name : Str
  Binary : Bytes
deriving DecidableEq

/-- `ReplyInfo`: referenced-message ID and referenced sender. -/
structure ReplyInfo where
  ID : Nat
  Sender : Str
deriving DecidableEq

/-- `LocationData`, generic over the numeric carrier of the coordinates
(`strconv.ParseFloat` is abstracted, see `parseLocation`). -/
structure LocationData (α : Type) where
  Name : Str
  Address : Str
  Latitude : α
  Longitude : α
deriving DecidableEq

/-- Go `unicode.IsSpace`, restricted to the whitespace runes it recognises
in Latin-1. -/
def isGoSpace (c : Char) : Bool :=
  c = ' ' || c = '\t' || c = '\n' || c = '\x0b' || c = '\x0c' || c = '\r' ||
  c = '\x85' || c = '\xa0'

/-- Go `strings.TrimSpace`, at the rune level. -/
def trimSpaceGo (s : Str) : Str :=
  ((s.dropWhile isGoSpace).reverse.dropWhile isGoSpace).reverse

/-- Go `strings.FieldsFunc` with the separator predicate `r == ','`: the maximal
runs of non-comma runes. Empty runs are dropped, so the result may be the empty
(in Go: non-nil) slice. -/
def fieldsFuncComma (s : Str) : List Str :=
  (s.splitOn ',').filter (fun t => t ≠ [])

/-- Inner text of an optional node with empty text treated as missing: the
`node == nil || len(node.InnerText()) == 0` pattern of the source. -/
def nonEmptyText : Option Str → Option Str
  | none => none
  | some s => if s = [] then none else some s

/-- `getMentions` from util.go. The lookup `/msgsource/atuserlist` on `ExtraInfo`
is abstracted: `atuserText = none` models empty `ExtraInfo`, a parse error or a
missing node; `some t` a node with inner text `t`. Result `none` is Go's nil
slice; `some l` a non-nil slice. -/
def getMentions (atuserText : Option Str) : Option (List Str) :=
  match atuserText with
  | none => none
  | some t =>
    if t.length = 0 then none
    else some (fieldsFuncComma (trimSpaceGo t))

/-- Whether a slash path is rooted (absolute). -/
def isRooted (p : Str) : Bool :=
  match p with
  | '/' :: _ => true
  | _ => false

/-- Component processing of Go `filepath.Clean`: drop empty and `.` components;
`..` pops the previous component, is dropped at the root of a rooted path, and
is kept at the front of a relative path. `acc` is the output so far, reversed. -/
def cleanParts (rooted : Bool) (acc : List Str) : List Str → List Str
  | [] => acc.reverse
  | p :: ps =>
    if p = [] || p = ['.'] then cleanParts rooted acc ps
    else if p = ['.', '.'] then
      match acc with
      | a :: rest =>
        if a = ['.', '.'] then cleanParts rooted (p :: a :: rest) ps
        else cleanParts rooted rest ps
      | [] => if rooted then cleanParts rooted [] ps else cleanParts rooted [p] ps
    else cleanParts rooted (p :: acc) ps

/-- Go `filepath.Clean`, modelled for slash-separated paths. -/
def goClean (p : Str) : Str :=
  let parts := cleanParts (isRooted p) [] (p.splitOn '/')
  let body := List.intercalate ['/'] parts
  if isRooted p then '/' :: body
  else if body = [] then ['.'] else body

/-- Go `filepath.Join`: drop empty elements, join the rest with the separator,
then `Clean`; all elements empty yields the empty string. -/
def goJoin (elems : List Str) : Str :=
  let ne := elems.filter (fun e => e ≠ [])
  if ne = [] then [] else goClean (List.intercalate ['/'] ne)

/-- Go `filepath.Base`, modelled for slash-separated paths. -/
def baseName (p : Str) : Str :=
  if p = [] then ['.']
  else
    match ((p.splitOn '/').filter (fun e => e ≠ [])).getLast? with
    | some l => l
    | none => ['/']

/-- Go `filepath.Ext`: the suffix of the last path element beginning at its
final dot; empty when the last element has no dot. -/
def extName (p : Str) : Str :=
  let revComp := p.reverse.takeWhile (fun c => c ≠ '/')
  if revComp.contains '.'
  then ((revComp.takeWhile (fun c => c ≠ '.')) ++ ['.']).reverse
  else []

/-- Go `strings.TrimSuffix`. -/
def trimSuffix (s suf : Str) : Str :=
  if suf <:+ s then s.take (s.length - suf.length) else s

/-- State of one path on disk at one instant: `absent` (`os.Stat` fails),
`unreadable` (`os.Stat` succeeds but `os.ReadFile` fails), or `present` with
readable contents. -/
inductive FileState
  | absent
  | unreadable
  | present (bytes : Bytes)
deriving DecidableEq

/-- Go `PathExists`: `os.Stat` succeeds (whether or not the file is readable). -/
def PathExists (st : FileState) : Bool :=
  match st with
  | .absent => false
  | _ => true

/-- `os.ReadFile` under the model. -/
def readFile (st : FileState) : Option Bytes :=
  match st with
  | .present bs => some bs
  | _ => none

/-- One iteration of a download loop: the first candidate that exists is read; a
read failure falls through to the next sleep (not to the next candidate), exactly
as in the `switch`/`if` bodies of the download functions. -/
def checkOnce (fsNow : Str → FileState) (cands : List Str) : Option Bytes :=
  match cands.find? (fun c => PathExists (fsNow c)) with
  | some c => readFile (fsNow c)
  | none => none

/-- `MediaDownloadTiemout` (the source's spelling): 30 seconds, modelled as 30
polling steps of 1 time unit each. -/
def MediaDownloadTiemout : Nat := 30

/-- The polling loop shared by the disk-backed download functions: check the
candidates for the current instant, return bytes on success, otherwise sleep one
time unit; when the deadline (`fuel` remaining steps) expires, return Go's nil.
`fs t` is the filesystem at instant `t`; `candsAt t` the candidate list consulted
at instant `t` (each download function computes it before the loop, so it is
constant in `t`). -/
def pollFrom (fs : Nat → Str → FileState) (candsAt : Nat → List Str) :
    Nat → Nat → Option Bytes
  | _, 0 => none
  | t, fuel + 1 =>
    match checkOnce (fs t) (candsAt t) with
    | some bs => some bs
    | none => pollFrom fs candsAt (t + 1) fuel

/-- The candidate list of `downloadImage`, computed before its loop, in the
order of the source's `switch`: the extension-stripped `baseFile` first, then
`baseFile` with `.png`, `.gif`, `.jpg` appended. The joined hinted path
`imageFile` itself is only used to derive `baseFile`; the `switch` never checks
it (it coincides with `baseFile` exactly when the hint has no extension). -/
def imageCandidates (workdir self filePath : Str) : List Str :=
  let imageFile := goJoin [workdir, self, baseName filePath]
  let baseFile := trimSuffix imageFile (extName imageFile)
  [baseFile, baseFile ++ ".png".data, baseFile ++ ".gif".data, baseFile ++ ".jpg".data]

/-- The candidate list consulted by `downloadImage` at poll instant `t` (the
source computes the four file names once, before the loop). -/
def imageCandsAt (workdir self filePath : Str) (_t : Nat) : List Str :=
  imageCandidates workdir self filePath

/-- `downloadImage`: polls the four candidates; on success the blob is named
`filepath.Base(msg.FilePath)` — the hint's base name — as in the source. -/
def downloadImage (fs : Nat → Str → FileState) (workdir self filePath : Str) :
    Option BlobData :=
  (pollFrom fs (imageCandsAt workdir self filePath) 0 MediaDownloadTiemout).map
    (fun bs => ⟨baseName filePath, bs⟩)

/-- The single candidate of `downloadVoice`: `Workdir/Self/<clientmsgid>.amr`. -/
def voiceFile (workdir self id : Str) : Str :=
  goJoin [workdir, self, id ++ ".amr".data]

/-- `downloadVoice`: the `/msg/voicemsg/@clientmsgid` lookup is abstracted as
`clientmsgid`; missing or empty yields nil before any polling. -/
def downloadVoice (fs : Nat → Str → FileState) (workdir self : Str)
    (clientmsgid : Option Str) : Option BlobData :=
  match nonEmptyText clientmsgid with
  | none => none
  | some id =>
    (pollFrom fs (fun _ => [voiceFile workdir self id]) 0 MediaDownloadTiemout).map
      (fun bs => ⟨baseName (voiceFile workdir self id), bs⟩)

/-- The single candidate of `downloadVideo`: the hinted file path if present,
else the thumbnail with its extension replaced by `.mp4`. -/
def videoFile (docdir filePath thumbnail : Str) : Str :=
  if filePath.length > 0 then goJoin [docdir, filePath]
  else
    let v := goJoin [docdir, thumbnail]
    trimSuffix v (extName v) ++ ".mp4".data

/-- `downloadVideo`. -/
def downloadVideo (fs : Nat → Str → FileState) (docdir filePath thumbnail : Str) :
    Option BlobData :=
  (pollFrom fs (fun _ => [videoFile docdir filePath thumbnail]) 0 MediaDownloadTiemout).map
    (fun bs => ⟨baseName (videoFile docdir filePath thumbnail), bs⟩)

/-- `downloadFile`: single candidate `Docdir/FilePath`. -/
def downloadFile (fs : Nat → Str → FileState) (docdir filePath : Str) :
    Option BlobData :=
  (pollFrom fs (fun _ => [goJoin [docdir, filePath]]) 0 MediaDownloadTiemout).map
    (fun bs => ⟨baseName (goJoin [docdir, filePath]), bs⟩)

/-- `downloadSticker`: resolved purely through the remote fetch (`GetBytes`);
the definition takes no filesystem and performs no polling. `cdnurl`/`aeskey`
are the `//@cdnurl` and `//@aeskey` lookups. -/
def downloadSticker (cdnurl aeskey : Option Str) (fetch : Str → Option Bytes) :
    Option BlobData :=
  match nonEmptyText cdnurl with
  | none => none
  | some url =>
    match nonEmptyText aeskey with
    | none => none
    | some hash =>
      match fetch url with
      | some data => some ⟨hash, data⟩
      | none => none

/-- `parseLocation`, with `strconv.ParseFloat(s, 64)` abstracted as `pf` over an
arbitrary numeric carrier `α`: the claims concern the control flow and the exact
round-tripping of whatever `pf` parses, not the float grammar itself. -/
def parseLocation {α : Type} (pf : Str → Option α)
    (x y poiname label : Option Str) : Option (LocationData α) :=
  match nonEmptyText x with
  | none => none
  | some xs =>
    match pf xs with
    | none => none
    | some latitude =>
      match nonEmptyText y with
      | none => none
      | some ys =>
        match pf ys with
        | none => none
        | some longitude =>
          some ⟨poiname.getD [], label.getD [], latitude, longitude⟩

/-- Go `strconv.ParseUint(s, 10, 64)`: nonempty decimal digits whose value fits
in 64 bits; anything else is an error. -/
def parseUint64 (s : Str) : Option Nat :=
  if s = [] then none
  else if s.all (fun c => c.isDigit) then
    let v := s.foldl (fun a c => a * 10 + (c.toNat - 48)) 0
    if v < 2 ^ 64 then some v else none
  else none

/-- Referenced-sender lookup of `parseReply`: `/msg/appmsg/refermsg/chatusr`
with `/msg/appmsg/refermsg/fromusr` as fallback when absent or empty. -/
def senderOf (chatusr fromusr : Option Str) : Option Str :=
  match nonEmptyText chatusr with
  | some u => some u
  | none => nonEmptyText fromusr

/-- `parseReply`: Go's `("", nil)` is `none`; a successful `(title, info)` pair
is `some`. Field order follows the source: title, then svrid non-emptiness,
then sender, then the uint parse of svrid. -/
def parseReply (title svrid chatusr fromusr : Option Str) :
    Option (Str × ReplyInfo) :=
  match nonEmptyText title with
  | none => none
  | some t =>
    match nonEmptyText svrid with
    | none => none
    | some s =>
      match senderOf chatusr fromusr with
      | none => none
      | some u =>
        match parseUint64 s with
        | none => none
        | some n => some (t, ⟨n, u⟩)

/-- The `/voipmsg` bubble branch of `parsePrivateVoIP`. -/
def voipBubble (bubble : Bool) (msgNode : Option Str) : Str :=
  if bubble then
    match msgNode with
    | some m => "VoIP: ".data ++ m
    | none => []
  else []

/-- `parsePrivateVoIP`: `invite` and `bubble` model the presence of
`/voipinvitemsg` and `/voipmsg`; `status` and `msgNode` the optional status and
`//msg` nodes. The `switch` maps status "1" and "2" to fixed strings and any
other status (including "") to the formatted unknown-status string. -/
def parsePrivateVoIP (invite : Bool) (status : Option Str)
    (bubble : Bool) (msgNode : Option Str) : Str :=
  if invite then
    match status with
    | some st =>
      if st = "1".data then "VoIP: Started a call".data
      else if st = "2".data then "VoIP: Call ended".data
      else "VoIP: Unknown status ".data ++ st
    | none => voipBubble bubble msgNode
  else voipBubble bubble msgNode

/-- A lowercase hexadecimal digit. -/
def hexDigit (n : Nat) : Char :=
  if n < 10 then Char.ofNat (48 + n) else Char.ofNat (87 + n)

/-- Go `fmt.Sprintf("%x", b)` for one byte: two lowercase hex digits. -/
def hexByte (b : Nat) : Str :=
  [hexDigit (b / 16 % 16), hexDigit (b % 16)]

/-- Go `fmt.Sprintf("%x", sum)` for a byte array: the concatenation of the
lowercase hex renderings of its bytes. -/
def hexOfBytes (bs : Bytes) : Str :=
  (bs.map hexByte).flatten

/-- The path `saveBlob` writes to, with `md5.Sum` abstracted as `md5sum`:
`Join(Workdir, Name)` for a non-empty name, else
`Join(Workdir, "%x" of the content hash)`. -/
def savePath (md5sum : Bytes → Bytes) (workdir : Str) (d : BlobData) : Str :=
  if d.Name.length > 0 then goJoin [workdir, d.Name]
  else goJoin [workdir, hexOfBytes (md5sum d.Binary)]

/-- `saveBlob`: `blob = none` models a JSON unmarshal failure; `writeOk` models
whether `os.WriteFile` succeeds at a given path. Any failure yields the empty
string. -/
def saveBlob (md5sum : Bytes → Bytes) (writeOk : Str → Bool) (workdir : Str)
    (blob : Option BlobData) : Str :=
  match blob with
  | none => []
  | some d =>
    let path := savePath md5sum workdir d
    if writeOk path then path else []

/-- A path lies under a directory: it is the directory itself or has it as a
proper ancestor. -/
def underDir (dir p : Str) : Prop :=
  p = dir ∨ (dir ++ ['/']) <+: p

/-! ### Helper lemmas about the string model -/

theorem dropWhile_eq_self_of_all {α : Type} {p : α → Bool} {l : List α}
    (h : ∀ a ∈ l, ¬ p a) : l.dropWhile p = l := by
  cases l with
  | nil => rfl
  | cons a as => simp [List.dropWhile_cons, h a (by simp)]

theorem trimSpaceGo_eq_self {l : Str} (h : ∀ c ∈ l, ¬ isGoSpace c) :
    trimSpaceGo l = l := by
  unfold trimSpaceGo
  rw [dropWhile_eq_self_of_all h,
    dropWhile_eq_self_of_all (fun c hc => h c (List.mem_reverse.mp hc)),
    List.reverse_reverse]

theorem intercalate_pair {α : Type} (sep a b : List α) (l : List (List α)) :
    List.intercalate sep (a :: b :: l) = a ++ sep ++ List.intercalate sep (b :: l) := by
  simp [List.intercalate, List.intersperse]

theorem mem_intercalate_comma {ids : List Str} {c : Char}
    (h : c ∈ List.intercalate [','] ids) : c = ',' ∨ ∃ s ∈ ids, c ∈ s := by
  induction ids with
  | nil => simp [List.intercalate] at h
  | cons a l ih =>
    cases l with
    | nil =>
      simp [List.intercalate] at h
      exact Or.inr ⟨a, by simp, h⟩
    | cons b m =>
      rw [intercalate_pair] at h
      rcases List.mem_append.mp h with h1 | h2
      · rcases List.mem_append.mp h1 with h3 | h4
        · exact Or.inr ⟨a, by simp, h3⟩
        · exact Or.inl (by simpa using h4)
      · rcases ih h2 with h5 | ⟨s, hs, hcs⟩
        · exact Or.inl h5
        · exact Or.inr ⟨s, by simp [hs], hcs⟩

theorem intercalate_comma_ne_nil {ids : List Str} (hne : ids ≠ [])
    (hhead : ∀ s ∈ ids, s ≠ []) : List.intercalate [','] ids ≠ [] := by
  cases ids with
  | nil => exact absurd rfl hne
  | cons a l =>
    cases l with
    | nil => simpa [List.intercalate] using hhead a (by simp)
    | cons b m =>
      rw [intercalate_pair]
      intro hc
      rcases List.append_eq_nil.mp hc with ⟨h1, -⟩
      rcases List.append_eq_nil.mp h1 with ⟨-, h2⟩
      cases h2

/-- C1: for every mention-list payload whose node text is the comma-join of
N ≥ 1 identifiers (nonempty, comma-free, whitespace-free), `getMentions`
returns exactly those N identifiers in order; an absent node (or absent/empty
`ExtraInfo`, or a parse error) and an empty node text both yield Go's nil
slice, never an empty non-nil slice. -/
theorem getMentions_spec (ids : List Str) (hne : ids ≠ [])
    (hid : ∀ s ∈ ids, s ≠ [] ∧ ',' ∉ s ∧ ∀ c ∈ s, ¬ isGoSpace c) :
    getMentions (some (List.intercalate [','] ids)) = some ids
    ∧ getMentions none = none ∧ getMentions (some []) = none := by
  refine ⟨?_, rfl, rfl⟩
  have hne2 : List.intercalate [','] ids ≠ [] :=
    intercalate_comma_ne_nil hne (fun s hs => (hid s hs).1)
  have hlen : ¬ (List.intercalate [','] ids).length = 0 := by
    simpa [List.length_eq_zero] using hne2
  simp only [getMentions]
  rw [if_neg hlen]
  have htrim : trimSpaceGo (List.intercalate [','] ids) = List.intercalate [','] ids := by
    refine trimSpaceGo_eq_self (fun c hc => ?_)
    rcases mem_intercalate_comma hc with h1 | ⟨s, hs, hcs⟩
    · subst h1; decide
    · exact (hid s hs).2.2 c hcs
  rw [htrim]
  unfold fieldsFuncComma
  rw [List.splitOn_intercalate ids ',' (fun l hl => (hid l hl).2.1) hne]
  rw [List.filter_eq_self.mpr (fun a ha => by simpa using (hid a ha).1)]

/-- Closed witness for `getMentions_spec`. -/
theorem getMentions_spec_witness :
    getMentions (some (List.intercalate [','] ["ab".data, "cd".data])) =
      some ["ab".data, "cd".data]
    ∧ getMentions none = none ∧ getMentions (some []) = none :=
  getMentions_spec ["ab".data, "cd".data] (by decide) (by decide)

/-- A filesystem (constant in time) in which only `w/u/a.png` exists, used to
exercise `downloadImage` when the hinted path itself is never written. -/
def onlyPngFs : Nat → Str → FileState :=
  fun _ p => if p = "w/u/a.png".data then FileState.present [1, 2, 3] else FileState.absent

/-- C3 counterexample: with hint `a.dat` and only `w/u/a.png` on disk, the
winning candidate is `w/u/a.png`, yet `downloadImage` names the blob `a.dat`
(the hint's base name), not the winning candidate's base name `a.png`. -/
theorem downloadImage_name_cex :
    (imageCandidates "w".data "u".data "a.dat".data).find?
        (fun c => PathExists (onlyPngFs 0 c)) = some "w/u/a.png".data
    ∧ downloadImage onlyPngFs "w".data "u".data "a.dat".data =
        some ⟨"a.dat".data, [1, 2, 3]⟩
    ∧ baseName "w/u/a.png".data ≠ "a.dat".data := by
  refine ⟨by decide, by decide, by decide⟩

/-- C3 amended: for the single-candidate acquisitions (voice, video, generic
file) a successful blob is named after the winning candidate's base name; for
images the blob is named after the hinted file path's base name, regardless of
which of the four candidates won. -/
theorem download_name_spec (fs : Nat → Str → FileState)
    (workdir self docdir filePath thumbnail id : Str) :
    (∀ b, downloadVoice fs workdir self (some id) = some b →
      b.Name = baseName (voiceFile workdir self id))
    ∧ (∀ b, downloadVideo fs docdir filePath thumbnail = some b →
      b.Name = baseName (videoFile docdir filePath thumbnail))
    ∧ (∀ b, downloadFile fs docdir filePath = some b →
      b.Name = baseName (goJoin [docdir, filePath]))
    ∧ (∀ b, downloadImage fs workdir self filePath = some b →
      b.Name = baseName filePath) := by
  refine ⟨?_, ?_, ?_, ?_⟩
  · intro b hb
    by_cases hid : id = []
    · subst hid; simp [downloadVoice, nonEmptyText] at hb
    · simp only [downloadVoice, nonEmptyText, if_neg hid] at hb
      rcases Option.map_eq_some'.mp hb with ⟨bs, -, hfb⟩
      rw [← hfb]
  · intro b hb
    simp only [downloadVideo] at hb
    rcases Option.map_eq_some'.mp hb with ⟨bs, -, hfb⟩
    rw [← hfb]
  · intro b hb
    simp only [downloadFile] at hb
    rcases Option.map_eq_some'.mp hb with ⟨bs, -, hfb⟩
    rw [← hfb]
  · intro b hb
    simp only [downloadImage] at hb
    rcases Option.map_eq_some'.mp hb with ⟨bs, -, hfb⟩
    rw [← hfb]

/-- Closed witness for `download_name_spec`. -/
theorem download_name_spec_witness :
    (BlobData.mk "i.amr".data [7]).Name = baseName (voiceFile "w".data "u".data "i".data)
    ∧ (BlobData.mk "f.bin".data [7]).Name =
        baseName (videoFile "d".data "f.bin".data "t".data)
    ∧ (BlobData.mk "f.bin".data [7]).Name = baseName (goJoin ["d".data, "f.bin".data])
    ∧ (BlobData.mk "f.bin".data [7]).Name = baseName "f.bin".data := by
  have T := download_name_spec (fun _ _ => FileState.present [7]) "w".data "u".data
      "d".data "f.bin".data "t".data "i".data
  exact ⟨T.1 _ (by decide), T.2.1 _ (by decide), T.2.2.1 _ (by decide),
    T.2.2.2 _ (by decide)⟩

theorem nonEmptyText_eq_some {o : Option Str} {t : Str} :
    nonEmptyText o = some t ↔ o = some t ∧ t ≠ [] := by
  cases o with
  | none => simp [nonEmptyText]
  | some s =>
    by_cases h : s = []
    · subst h
      simp only [nonEmptyText, if_pos rfl]
      constructor
      · intro hc; cases hc
      · rintro ⟨h1, h2⟩; cases h1; exact absurd rfl h2
    · simp only [nonEmptyText, if_neg h, Option.some_inj]
      constructor
      · rintro rfl; exact ⟨rfl, h⟩
      · rintro ⟨h1, -⟩; cases h1; rfl

theorem nonEmptyText_eq_none {o : Option Str} :
    nonEmptyText o = none ↔ o = none ∨ o = some [] := by
  cases o with
  | none => simp [nonEmptyText]
  | some s =>
    by_cases h : s = []
    · subst h; simp [nonEmptyText]
    · simp [nonEmptyText, if_neg h, h]

/-- C4: whenever both coordinate attributes are present, nonempty and parsed by
the (abstracted) float parser `pf`, `parseLocation` returns exactly the parsed
latitude and longitude, with name and label defaulting to the empty string when
their nodes are absent; whenever the x or the y attribute is absent, empty or
unparseable, it returns no match — never a partially populated record. -/
theorem parseLocation_spec {α : Type} (pf : Str → Option α)
    (x y poiname label : Option Str) :
    (∀ xs ys lat lon, x = some xs → xs ≠ [] → pf xs = some lat →
      y = some ys → ys ≠ [] → pf ys = some lon →
      parseLocation pf x y poiname label =
        some ⟨poiname.getD [], label.getD [], lat, lon⟩)
    ∧ (((nonEmptyText x).bind pf = none ∨ (nonEmptyText y).bind pf = none) →
      parseLocation pf x y poiname label = none) := by
  constructor
  · intro xs ys lat lon hx hxs hpx hy hys hpy
    have h1 : nonEmptyText x = some xs := nonEmptyText_eq_some.mpr ⟨hx, hxs⟩
    have h2 : nonEmptyText y = some ys := nonEmptyText_eq_some.mpr ⟨hy, hys⟩
    simp [parseLocation, h1, h2, hpx, hpy]
  · intro hfail
    simp only [parseLocation]
    cases h1 : nonEmptyText x with
    | none => rfl
    | some xs =>
      cases hpx : pf xs with
      | none => simp [hpx]
      | some lat =>
        cases h2 : nonEmptyText y with
        | none => simp [hpx]
        | some ys =>
          cases hpy : pf ys with
          | none => simp [hpx, hpy]
          | some lon =>
            exfalso
            rcases hfail with hf | hf
            · rw [h1] at hf; simp [hpx] at hf
            · rw [h2] at hf; simp [hpy] at hf

/-- Closed witness for `parseLocation_spec` (with `parseUint64` standing in as a
concrete parser): both success and the no-match case. -/
theorem parseLocation_spec_witness :
    parseLocation parseUint64 (some "3".data) (some "4".data) none
      (some "lbl".data) = some ⟨[], "lbl".data, 3, 4⟩
    ∧ parseLocation parseUint64 (some "3x".data) (some "4".data) none none = none :=
  ⟨(parseLocation_spec parseUint64 (some "3".data) (some "4".data) none
      (some "lbl".data)).1 "3".data "4".data 3 4 rfl (by decide) (by decide)
      rfl (by decide) (by decide),
    (parseLocation_spec parseUint64 (some "3x".data) (some "4".data) none none).2
      (Or.inl (by decide))⟩

theorem senderOf_eq_some {cu fu : Option Str} {u : Str} :
    senderOf cu fu = some u ↔
      ((cu = some u ∧ u ≠ [])
        ∨ ((cu = none ∨ cu = some []) ∧ fu = some u ∧ u ≠ [])) := by
  simp only [senderOf]
  cases h : nonEmptyText cu with
  | some w =>
    obtain ⟨hc, hw⟩ := nonEmptyText_eq_some.mp h
    subst hc
    constructor
    · intro he
      cases he
      exact Or.inl ⟨rfl, hw⟩
    · rintro (⟨he, -⟩ | ⟨(hc | hc), -, -⟩)
      · cases he; rfl
      · cases hc
      · cases hc; exact absurd rfl hw
  | none =>
    constructor
    · intro hf
      obtain ⟨hf1, hf2⟩ := nonEmptyText_eq_some.mp hf
      exact Or.inr ⟨nonEmptyText_eq_none.mp h, hf1, hf2⟩
    · rintro (⟨hc, hu⟩ | ⟨-, hf, hu⟩)
      · rcases nonEmptyText_eq_none.mp h with h1 | h1 <;> rw [hc] at h1
        · cases h1
        · cases h1; exact absurd rfl hu
      · exact nonEmptyText_eq_some.mpr ⟨hf, hu⟩

/-- C5: `parseReply` returns a record iff the payload has a nonempty title, a
referenced-message ID that parses as a base-10 unsigned 64-bit integer, and a
nonempty referenced sender taken from `chatusr` or — when `chatusr` is absent
or empty — from `fromusr`; and when all three requirements hold the record is
exactly the title together with the parsed ID and that sender. -/
theorem parseReply_spec (title svrid chatusr fromusr : Option Str) :
    ((∃ r, parseReply title svrid chatusr fromusr = some r) ↔
      ((∃ t, title = some t ∧ t ≠ [])
        ∧ (∃ s n, svrid = some s ∧ s ≠ [] ∧ parseUint64 s = some n)
        ∧ ((∃ u, chatusr = some u ∧ u ≠ [])
            ∨ ((chatusr = none ∨ chatusr = some []) ∧ ∃ v, fromusr = some v ∧ v ≠ []))))
    ∧ (∀ t s n u, nonEmptyText title = some t → nonEmptyText svrid = some s →
        parseUint64 s = some n → senderOf chatusr fromusr = some u →
        parseReply title svrid chatusr fromusr = some (t, ⟨n, u⟩)) := by
  constructor
  · constructor
    · rintro ⟨r, hr⟩
      simp only [parseReply] at hr
      cases h1 : nonEmptyText title with
      | none => simp [h1] at hr
      | some t =>
        simp only [h1] at hr
        cases h2 : nonEmptyText svrid with
        | none => simp [h2] at hr
        | some s =>
          simp only [h2] at hr
          cases h3 : senderOf chatusr fromusr with
          | none => simp [h3] at hr
          | some u =>
            simp only [h3] at hr
            cases h4 : parseUint64 s with
            | none => simp [h4] at hr
            | some n =>
              obtain ⟨ht1, ht2⟩ := nonEmptyText_eq_some.mp h1
              obtain ⟨hs1, hs2⟩ := nonEmptyText_eq_some.mp h2
              refine ⟨⟨t, ht1, ht2⟩, ⟨s, n, hs1, hs2, h4⟩, ?_⟩
              rcases senderOf_eq_some.mp h3 with ⟨hc, hu⟩ | ⟨hc, hf, hu⟩
              · exact Or.inl ⟨u, hc, hu⟩
              · exact Or.inr ⟨hc, u, hf, hu⟩
    · rintro ⟨⟨t, ht1, ht2⟩, ⟨s, n, hs1, hs2, hs3⟩, hsend⟩
      have h1 : nonEmptyText title = some t := nonEmptyText_eq_some.mpr ⟨ht1, ht2⟩
      have h2 : nonEmptyText svrid = some s := nonEmptyText_eq_some.mpr ⟨hs1, hs2⟩
      obtain ⟨u, h3⟩ : ∃ u, senderOf chatusr fromusr = some u := by
        rcases hsend with ⟨u, hc, hu⟩ | ⟨hc, v, hf, hv⟩
        · exact ⟨u, senderOf_eq_some.mpr (Or.inl ⟨hc, hu⟩)⟩
        · exact ⟨v, senderOf_eq_some.mpr (Or.inr ⟨hc, hf, hv⟩)⟩
      exact ⟨(t, ⟨n, u⟩), by simp [parseReply, h1, h2, h3, hs3]⟩
  · intro t s n u ht hs hn hu
    simp [parseReply, ht, hs, hu, hn]

/-- Closed witness for `parseReply_spec`: the spec's end-to-end reply scenario. -/
theorem parseReply_spec_witness :
    parseReply (some "Hello".data) (some "12345".data) (some "alice".data) none =
      some ("Hello".data, ⟨12345, "alice".data⟩) :=
  (parseReply_spec (some "Hello".data) (some "12345".data) (some "alice".data)
      none).2 "Hello".data "12345".data 12345 "alice".data
    (by decide) (by decide) (by decide) (by decide)

/-- C6: for an invitation payload with a status node, status "1" yields exactly
the fixed call-started string, status "2" exactly the fixed call-ended string,
and any other status code `st` the formatted unknown-status string, which
contains `st` verbatim (as a suffix). -/
theorem parsePrivateVoIP_spec (st : Str) (bubble : Bool) (msgNode : Option Str) :
    parsePrivateVoIP true (some "1".data) bubble msgNode = "VoIP: Started a call".data
    ∧ parsePrivateVoIP true (some "2".data) bubble msgNode = "VoIP: Call ended".data
    ∧ (st ≠ "1".data → st ≠ "2".data →
        parsePrivateVoIP true (some st) bubble msgNode =
          "VoIP: Unknown status ".data ++ st
        ∧ st <:+ parsePrivateVoIP true (some st) bubble msgNode) := by
  refine ⟨by simp [parsePrivateVoIP], by simp [parsePrivateVoIP], ?_⟩
  intro h1 h2
  have heq : parsePrivateVoIP true (some st) bubble msgNode =
      "VoIP: Unknown status ".data ++ st := by
    simp [parsePrivateVoIP, h1, h2]
  exact ⟨heq, heq ▸ ⟨"VoIP: Unknown status ".data, rfl⟩⟩

/-- Closed witness for `parsePrivateVoIP_spec`. -/
theorem parsePrivateVoIP_spec_witness :
    parsePrivateVoIP true (some "7".data) false none = "VoIP: Unknown status 7".data
    ∧ "7".data <:+ parsePrivateVoIP true (some "7".data) false none :=
  (parsePrivateVoIP_spec "7".data false none).2.2 (by decide) (by decide)

/-- C7: with a nonempty `cdnurl` and a nonempty `aeskey` anywhere in the parsed
tree, the sticker is resolved as a blob named by the `aeskey` value whose bytes
are the remote fetch of the `cdnurl` (the definition of `downloadSticker` takes
no filesystem and performs no disk polling); absence or emptiness of either
attribute yields no match. -/
theorem downloadSticker_spec (url key : Str) (fetch : Str → Option Bytes)
    (bs : Bytes) :
    (url ≠ [] → key ≠ [] → fetch url = some bs →
      downloadSticker (some url) (some key) fetch = some ⟨key, bs⟩)
    ∧ downloadSticker none (some key) fetch = none
    ∧ downloadSticker (some []) (some key) fetch = none
    ∧ downloadSticker (some url) none fetch = none
    ∧ downloadSticker (some url) (some []) fetch = none := by
  refine ⟨?_, rfl, rfl, ?_, ?_⟩
  · intro hu hk hf
    simp [downloadSticker, nonEmptyText, hu, hk, hf]
  · by_cases hu : url = [] <;> simp [downloadSticker, nonEmptyText, hu]
  · by_cases hu : url = [] <;> simp [downloadSticker, nonEmptyText, hu]

/-- Closed witness for `downloadSticker_spec`: the spec's end-to-end sticker
scenario. -/
theorem downloadSticker_spec_witness :
    downloadSticker (some "http://x/y.png".data) (some "deadbeef".data)
      (fun u => if u = "http://x/y.png".data then some [9, 9] else none) =
      some ⟨"deadbeef".data, [9, 9]⟩ :=
  (downloadSticker_spec "http://x/y.png".data "deadbeef".data
      (fun u => if u = "http://x/y.png".data then some [9, 9] else none) [9, 9]).1
    (by decide) (by decide) (by decide)

theorem pollFrom_none_iff (fs : Nat → Str → FileState) (cands : List Str) :
    ∀ (fuel t : Nat),
      (pollFrom fs (fun _ => cands) t fuel = none ↔
        ∀ u, t ≤ u → u < t + fuel → checkOnce (fs u) cands = none) := by
  intro fuel
  induction fuel with
  | zero =>
    intro t
    constructor
    · intro _ u h1 h2; omega
    · intro _; rfl
  | succ n ih =>
    intro t
    simp only [pollFrom]
    cases h : checkOnce (fs t) cands with
    | some bs =>
      simp only [h]
      constructor
      · intro hc; cases hc
      · intro hall
        have := hall t (Nat.le_refl t) (by omega)
        rw [this] at h; cases h
    | none =>
      simp only [h]
      rw [ih (t + 1)]
      constructor
      · intro hall u hu1 hu2
        rcases Nat.eq_or_lt_of_le hu1 with rfl | hlt
        · exact h
        · exact hall u hlt (by omega)
      · intro hall u hu1 hu2
        exact hall u (by omega) (by omega)

theorem pollFrom_found (fs : Nat → Str → FileState) (cands : List Str) :
    ∀ (fuel t d : Nat) (bs : Bytes), t ≤ d → d < t + fuel →
      checkOnce (fs d) cands = some bs →
      (∀ u, t ≤ u → u < d → checkOnce (fs u) cands = none) →
      pollFrom fs (fun _ => cands) t fuel = some bs := by
  intro fuel
  induction fuel with
  | zero => intro t d bs h1 h2 _ _; omega
  | succ n ih =>
    intro t d bs h1 h2 hfound hprev
    rcases Nat.eq_or_lt_of_le h1 with rfl | hlt
    · simp [pollFrom, hfound]
    · have hnone := hprev t (Nat.le_refl t) hlt
      simp only [pollFrom, hnone]
      exact ih (t + 1) d bs (by omega) (by omega) hfound
        (fun u hu1 hu2 => hprev u (by omega) hu2)

/-- C8: for the disk-backed acquisition `downloadFile` (representative of the
shared poll loop), if the first successful check of the candidate occurs at an
instant `d` strictly before the 30-step deadline then the fetch succeeds with
that check's bytes; and the fetch reports unavailable (Go's nil) exactly when
every check at instants 0, 1, ..., 29 — one per 1-time-unit polling interval —
fails, so it can never report unavailable before the deadline expires. -/
theorem downloadFile_deadline_spec (fs : Nat → Str → FileState)
    (docdir filePath : Str) :
    (∀ d bs, d < MediaDownloadTiemout →
      checkOnce (fs d) [goJoin [docdir, filePath]] = some bs →
      (∀ u, u < d → checkOnce (fs u) [goJoin [docdir, filePath]] = none) →
      downloadFile fs docdir filePath =
        some ⟨baseName (goJoin [docdir, filePath]), bs⟩)
    ∧ (downloadFile fs docdir filePath = none ↔
        ∀ u, u < MediaDownloadTiemout →
          checkOnce (fs u) [goJoin [docdir, filePath]] = none) := by
  constructor
  · intro d bs hd hfound hprev
    have hpoll := pollFrom_found fs [goJoin [docdir, filePath]]
      MediaDownloadTiemout 0 d bs (Nat.zero_le d) (by omega) hfound
      (fun u _ hu2 => hprev u hu2)
    simp [downloadFile, hpoll]
  · rw [show downloadFile fs docdir filePath = none ↔
        pollFrom fs (fun _ => [goJoin [docdir, filePath]]) 0 MediaDownloadTiemout =
          none by simp [downloadFile]]
    rw [pollFrom_none_iff fs [goJoin [docdir, filePath]] MediaDownloadTiemout 0]
    constructor
    · intro hall u hu; exact hall u (Nat.zero_le u) (by omega)
    · intro hall u _ hu; exact hall u (by omega)

/-- Closed witness for `downloadFile_deadline_spec`: a file that appears at
instant 2 is fetched with its bytes, and with an always-absent filesystem the
fetch reports unavailable. -/
theorem downloadFile_deadline_spec_witness :
    downloadFile (fun t p => if 2 ≤ t ∧ p = "d/f".data then FileState.present [5]
        else FileState.absent) "d".data "f".data =
      some ⟨baseName (goJoin ["d".data, "f".data]), [5]⟩
    ∧ downloadFile (fun _ _ => FileState.absent) "d".data "f".data = none :=
  ⟨(downloadFile_deadline_spec
      (fun t p => if 2 ≤ t ∧ p = "d/f".data then FileState.present [5]
        else FileState.absent) "d".data "f".data).1 2 [5]
      (by decide) (by decide) (by decide),
    (downloadFile_deadline_spec (fun _ _ => FileState.absent) "d".data "f".data).2.mpr
      (by decide)⟩

/-- Every rune emitted by the lowercase hex rendering is a decimal digit or a
lowercase letter between a and f. -/
theorem hexOfBytes_lower (bs : Bytes) :
    ∀ c ∈ hexOfBytes bs, c.isDigit ∨ ('a' ≤ c ∧ c ≤ 'f') := by
  intro c hc
  simp only [hexOfBytes] at hc
  rcases List.mem_flatten.mp hc with ⟨s, hs, hcs⟩
  rcases List.mem_map.mp hs with ⟨b, -, rfl⟩
  have hdig : ∀ n, n < 16 → (hexDigit n).isDigit ∨ ('a' ≤ hexDigit n ∧ hexDigit n ≤ 'f') := by
    decide
  simp only [hexByte, List.mem_cons, List.not_mem_nil, or_false] at hcs
  rcases hcs with h | h
  · exact h ▸ hdig _ (Nat.mod_lt _ (by omega))
  · exact h ▸ hdig _ (Nat.mod_lt _ (by omega))

/-- C9: persisting with an empty name derives the target deterministically as
the working-directory join of the lowercase hexadecimal rendering of the content
hash, so identical bytes always yield the identical filename; a non-empty name
is used verbatim, independent of the content; a write failure (and a decode
failure) yields the empty-string sentinel, and a successful write returns the
computed path. -/
theorem saveBlob_spec (md5sum : Bytes → Bytes) (writeOk : Str → Bool)
    (workdir name : Str) (bin bin' : Bytes) :
    savePath md5sum workdir ⟨[], bin⟩ = goJoin [workdir, hexOfBytes (md5sum bin)]
    ∧ (∀ c ∈ hexOfBytes (md5sum bin), c.isDigit ∨ ('a' ≤ c ∧ c ≤ 'f'))
    ∧ (name ≠ [] → savePath md5sum workdir ⟨name, bin⟩ = goJoin [workdir, name])
    ∧ (name ≠ [] → savePath md5sum workdir ⟨name, bin⟩ = savePath md5sum workdir ⟨name, bin'⟩)
    ∧ (∀ d : BlobData, writeOk (savePath md5sum workdir d) = false →
        saveBlob md5sum writeOk workdir (some d) = [])
    ∧ (∀ d : BlobData, writeOk (savePath md5sum workdir d) = true →
        saveBlob md5sum writeOk workdir (some d) = savePath md5sum workdir d)
    ∧ saveBlob md5sum writeOk workdir none = [] := by
  have hname : ∀ nm : Str, nm ≠ [] → ∀ b : Bytes,
      savePath md5sum workdir ⟨nm, b⟩ = goJoin [workdir, nm] := by
    intro nm hnm b
    have : nm.length > 0 := by
      cases nm with
      | nil => exact absurd rfl hnm
      | cons a l => simp
    simp [savePath, this]
  refine ⟨by simp [savePath], hexOfBytes_lower _, (fun h => hname name h bin), ?_, ?_, ?_, rfl⟩
  · intro hnm
    rw [hname name hnm bin, hname name hnm bin']
  · intro d hw
    simp [saveBlob, hw]
  · intro d hw
    simp [saveBlob, hw]

/-- Closed witness for `saveBlob_spec`. -/
theorem saveBlob_spec_witness :
    savePath (fun _ => [0, 255]) "w".data ⟨"n".data, [1]⟩ = goJoin ["w".data, "n".data]
    ∧ saveBlob (fun _ => [0, 255]) (fun _ => false) "w".data
        (some ⟨"n".data, [1]⟩) = []
    ∧ saveBlob (fun _ => [0, 255]) (fun _ => true) "w".data
        (some ⟨[], [1]⟩) = savePath (fun _ => [0, 255]) "w".data ⟨[], [1]⟩ := by
  have T := saveBlob_spec (fun _ => [0, 255]) (fun _ => false) "w".data "n".data [1] [2]
  have T2 := saveBlob_spec (fun _ => [0, 255]) (fun _ => true) "w".data "n".data [1] [2]
  exact ⟨T.2.2.1 (by decide), T.2.2.2.2.1 ⟨"n".data, [1]⟩ rfl,
    T2.2.2.2.2.2.1 ⟨[], [1]⟩ rfl⟩

/-- C10 counterexample: the supplied name `sub/file` contains a path separator,
yet the resulting write target `/work/sub/file` lies under the working
directory `/work`, not outside it. -/
theorem saveBlob_path_cex :
    ('/' ∈ "sub/file".data)
    ∧ savePath (fun b => b) "/work".data ⟨"sub/file".data, []⟩ = "/work/sub/file".data
    ∧ underDir "/work".data "/work/sub/file".data := by
  refine ⟨by decide, by decide, Or.inr ?_⟩
  exact ⟨"sub/file".data, by decide⟩

/-- C10 amended: for a non-empty name the write target is the unsanitized
lexical join of the working directory with the supplied name; a name whose
dot-dot components lexically resolve above the working directory yields a
target outside it (for example `../evil` under `/work` targets `/evil`), while
a name containing separators may remain below the working directory. -/
theorem saveBlob_path_spec (md5sum : Bytes → Bytes) (workdir name : Str)
    (bin : Bytes) :
    (name ≠ [] → savePath md5sum workdir ⟨name, bin⟩ = goJoin [workdir, name])
    ∧ savePath md5sum "/work".data ⟨"../evil".data, bin⟩ = "/evil".data
    ∧ ¬ underDir "/work".data "/evil".data := by
  refine ⟨?_, by simp [savePath]; decide, ?_⟩
  · intro hnm
    have : name.length > 0 := by
      cases name with
      | nil => exact absurd rfl hnm
      | cons a l => simp
    simp [savePath, this]
  · rintro (h | ⟨t, h⟩)
    · cases h
    · have hl := congrArg List.length h
      simp at hl

/-- Closed witness for `saveBlob_path_spec`. -/
theorem saveBlob_path_spec_witness :
    savePath (fun b => b) "/work".data ⟨"n".data, []⟩ = goJoin ["/work".data, "n".data]
    ∧ savePath (fun b => b) "/work".data ⟨"../evil".data, []⟩ = "/evil".data
    ∧ ¬ underDir "/work".data "/evil".data := by
  have T := saveBlob_path_spec (fun b => b) "/work".data "n".data []
  exact ⟨T.1 (by decide), T.2.1, T.2.2⟩
